import Mathlib

/-!
A shallow embedding of the fount font-indexing library (src/context.rs,
src/data.rs, src/font.rs, src/library.rs, src/scan.rs) and proofs about its
ingestion, fallback-resolution, source-cache and snapshot-synchronization
behaviour.

Machine integers (u32/u64 indices, version counters) are modelled as `Nat`;
the only place overflow matters is identifier allocation, which the source
checks explicitly, and that bound is modelled explicitly.  Byte blobs are
`List Nat`.  HashMaps are association lists with first-match lookup and
overwriting insert.  Interior mutability (`RwLock`, `RefCell`, atomics) is
modelled by explicit state passing on a single thread.  The swash face
parser is an external collaborator: ingestion is modelled as a function of
the list of face records the scanner emits for a blob.
-/

namespace Fount

/-- Modelled from the spec: the identifier scheme (id.rs is not among the
provided sources) packs a dense index and a one-bit origin tag (system vs
user); `alloc` fails with Overflow when the index exceeds the addressable
range. -/
structure FamilyId where
  index : Nat
  isUser : Bool
  deriving DecidableEq, Repr

/-- Modelled from the spec: font identifier, same packing as `FamilyId`. -/
structure FontId where
  index : Nat
  isUser : Bool
  deriving DecidableEq, Repr

/-- Modelled from the spec: source identifier, same packing as `FamilyId`. -/
structure SourceId where
  index : Nat
  isUser : Bool
  deriving DecidableEq, Repr

/-- The addressable index range of an identifier (one bit of a 32-bit word
is the origin tag). -/
def idMax : Nat := 2 ^ 31

def FamilyId.alloc (i : Nat) (user : Bool) : Option FamilyId :=
  if i < idMax then some ⟨i, user⟩ else none

def FontId.alloc (i : Nat) (user : Bool) : Option FontId :=
  if i < idMax then some ⟨i, user⟩ else none

def SourceId.alloc (i : Nat) (user : Bool) : Option SourceId :=
  if i < idMax then some ⟨i, user⟩ else none

def FamilyId.to_usize (id : FamilyId) : Nat := id.index

def FontId.to_usize (id : FontId) : Nat := id.index

def SourceId.to_usize (id : SourceId) : Nat := id.index

def FamilyId.is_user_font (id : FamilyId) : Bool := id.isUser

def FontId.is_user_font (id : FontId) : Bool := id.isUser

def SourceId.is_user_font (id : SourceId) : Bool := id.isUser

/-- swash::Stretch, an ordered numeric width class; only ordering, equality
and the distinguished `NORMAL` value are relevant here. -/
abbrev Stretch := Nat

/-- The distinguished normal stretch value (swash `Stretch::NORMAL`). -/
def Stretch.NORMAL : Stretch := 100

/-- swash::Weight, an ordered numeric weight. -/
abbrev Weight := Nat

/-- swash::Style; only decidable equality is relevant here. -/
abbrev Style := Nat

/-- swash::Attributes as its `parts()` triple (stretch, weight, style). -/
structure Attributes where
  stretch : Stretch
  weight : Weight
  style : Style
  deriving DecidableEq, Repr

/-- swash::text::Script; only `Han` is special-cased by the source, every
other script is handled uniformly through its canonical tag. -/
inductive Script where
  | Han
  | other (n : Nat)
  deriving DecidableEq, Repr

/-- swash::text::Cjk, variant `None` first (discriminant 0). -/
inductive Cjk where
  | none
  | simplified
  | traditional
  | japanese
  | korean
  deriving DecidableEq, Repr

/-- The `as usize` discriminant of a CJK variant. -/
def Cjk.toIndex : Cjk → Nat
  | .none => 0
  | .simplified => 1
  | .traditional => 2
  | .japanese => 3
  | .korean => 4

/-- A locale, observed by the source only through its CJK variant
(`Locale::cjk`). -/
structure Locale where
  cjkVariant : Cjk
  deriving DecidableEq, Repr

def Locale.cjk (l : Locale) : Cjk := l.cjkVariant

/-- Modelled from the spec: script_tags::script_tag (script_tags.rs is not
among the provided sources) maps a script to its canonical tag; modelled as
an injective assignment of numeric tags. -/
def script_tag : Script → Nat
  | .Han => 0
  | .other n => n + 1

/-- Raw font bytes (font.rs `FontData`, a shared byte blob). -/
abbrev FontBytes := List Nat

/-- font.rs `WeakFontData`: a weak reference whose upgrade either yields the
bytes or fails. -/
structure WeakFontData where
  target : Option FontBytes
  deriving DecidableEq, Repr

def WeakFontData.upgrade (w : WeakFontData) : Option FontBytes := w.target

/-- data.rs `SourceDataStatus`: the tri-state load-status cell. -/
inductive SourceDataStatus where
  | vacant
  | present (weak : WeakFontData)
  | error
  deriving DecidableEq, Repr

/-- data.rs `SourceDataKind`: a path or an owned buffer. -/
inductive SourceDataKind where
  | path (p : String)
  | data (d : FontBytes)
  deriving DecidableEq, Repr

/-- data.rs `SourceData`. -/
structure SourceData where
  kind : SourceDataKind
  status : SourceDataStatus
  deriving DecidableEq, Repr

/-- One `(FontId, Stretch, Weight, Style)` tuple of `FamilyData::fonts`. -/
structure FontRec where
  id : FontId
  stretch : Stretch
  weight : Weight
  style : Style
  deriving DecidableEq, Repr

/-- data.rs `FamilyData`. -/
structure FamilyData where
  name : String
  has_stretch : Bool
  fonts : List FontRec
  deriving DecidableEq, Repr

/-- data.rs `FontData` (the per-font record of a collection). -/
structure FontData where
  family : FamilyId
  source : SourceId
  index : Nat
  attributes : Attributes
  cache_key : Nat
  deriving DecidableEq, Repr

/-- The `[Vec<FamilyId>; CJK_FAMILY_COUNT]` array (one slot per CJK
variant, CJK_FAMILY_COUNT = 5). -/
structure CjkFamilies where
  cnone : List FamilyId
  csimp : List FamilyId
  ctrad : List FamilyId
  cjapan : List FamilyId
  ckorean : List FamilyId
  deriving DecidableEq, Repr

/-- Index the array by a CJK variant. -/
def CjkFamilies.get (c : CjkFamilies) : Cjk → List FamilyId
  | .none => c.cnone
  | .simplified => c.csimp
  | .traditional => c.ctrad
  | .japanese => c.cjapan
  | .korean => c.ckorean

/-- Index the array by a raw `usize`; indices beyond 4 are unreachable (the
array has exactly 5 slots). -/
def CjkFamilies.getIdx (c : CjkFamilies) : Nat → List FamilyId
  | 0 => c.cnone
  | 1 => c.csimp
  | 2 => c.ctrad
  | 3 => c.cjapan
  | 4 => c.ckorean
  | _ => []

/-- Push a family id onto a fallback list unless already present
(scan.rs: `if !entry.contains(&family_id) { entry.push(family_id) }`). -/
def pushUnique (l : List FamilyId) (fid : FamilyId) : List FamilyId :=
  if fid ∈ l then l else l ++ [fid]

/-- Update the slot of one CJK variant with `pushUnique`. -/
def CjkFamilies.push (c : CjkFamilies) (v : Cjk) (fid : FamilyId) : CjkFamilies :=
  match v with
  | .none => { c with cnone := pushUnique c.cnone fid }
  | .simplified => { c with csimp := pushUnique c.csimp fid }
  | .traditional => { c with ctrad := pushUnique c.ctrad fid }
  | .japanese => { c with cjapan := pushUnique c.cjapan fid }
  | .korean => { c with ckorean := pushUnique c.ckorean fid }

/-- HashMap lookup, modelled on an association list (first match wins). -/
def mapFind {κ α : Type} [BEq κ] (m : List (κ × α)) (k : κ) : Option α :=
  (m.find? (fun p => p.1 == k)).map (fun p => p.2)

/-- HashMap `contains_key`. -/
def mapContains {κ α : Type} [BEq κ] (m : List (κ × α)) (k : κ) : Bool :=
  (mapFind m k).isSome

/-- HashMap overwriting insert. -/
def mapInsert {κ α : Type} [BEq κ] (m : List (κ × α)) (k : κ) (v : α) :
    List (κ × α) :=
  (k, v) :: m.filter (fun p => !(p.1 == k))

/-- data.rs `CollectionData`.  The `system_source` handle (an external
platform collaborator) and the `generic_families` array (not touched by any
claim) are omitted. -/
structure CollectionData where
  is_user : Bool
  families : List FamilyData
  fonts : List FontData
  sources : List SourceData
  family_map : List (String × Option FamilyId)
  default_families : List FamilyId
  cjk_families : CjkFamilies
  script_fallbacks : List (Nat × List FamilyId)
  deriving DecidableEq, Repr

/-- `CollectionData::new` (minus the omitted fields). -/
def CollectionData.new : CollectionData :=
  { is_user := false
    families := []
    fonts := []
    sources := []
    family_map := []
    default_families := []
    cjk_families := ⟨[], [], [], [], []⟩
    script_fallbacks := [] }

/-- Modelled from the spec: `Registration` (declared in lib.rs, which is not
among the provided sources) is the set of family and font identifiers newly
introduced by one ingestion call; its shape is pinned down by its use sites
in scan.rs and context.rs. -/
structure Registration where
  families : List FamilyId
  fonts : List FontId
  deriving DecidableEq, Repr

/-- scan.rs `ScannedFont`: one face record emitted by the face scanner. -/
structure ScannedFont where
  name : String
  lowercase_name : String
  index : Nat
  attributes : Attributes
  cache_key : Nat
  scripts : List (Script × Cjk)
  deriving DecidableEq, Repr

/-- The loop of Rust `slice::binary_search_by` with comparator
`key probe |cmp| target`: `inl mid` is `Ok(mid)` (the comparator returned
Equal), `inr left` is `Err(left)` (the insertion point).  Each iteration
probes `mid = left + (right - left) / 2`.  The loop is driven by explicit
fuel so that it is structurally recursive: every iteration strictly shrinks
`right - left`, so any fuel of at least `right - left` suffices, and the
fuel-exhausted arm coincides with the loop-exit result (`left ≥ right`
there whenever the initial fuel was sufficient). -/
def rustBinarySearchGo {α : Type} (key : α → Nat) (target : Nat)
    (l : List α) : Nat → Nat → Nat → Nat ⊕ Nat
  | 0, left, _right => Sum.inr left
  | fuel + 1, left, right =>
    if left < right then
      match l[left + (right - left) / 2]? with
      | Option.none => Sum.inr left
      | Option.some x =>
        if key x < target then
          rustBinarySearchGo key target l fuel (left + (right - left) / 2 + 1)
            right
        else if target < key x then
          rustBinarySearchGo key target l fuel left
            (left + (right - left) / 2)
        else Sum.inl (left + (right - left) / 2)
    else Sum.inr left

/-- Rust `slice::binary_search_by` over the window `[left, right)`. -/
def rustBinarySearch {α : Type} (key : α → Nat) (target : Nat) (l : List α)
    (left right : Nat) : Nat ⊕ Nat :=
  rustBinarySearchGo key target l (right - left) left right

/-- The index at which scan.rs inserts a new face:
`match fonts.binary_search_by(|probe| probe.2.cmp(&weight)) { Ok(i) | Err(i) => i }`. -/
def bsInsertIdx {α : Type} (key : α → Nat) (target : Nat) (l : List α) : Nat :=
  match rustBinarySearch key target l 0 l.length with
  | Sum.inl i => i
  | Sum.inr i => i

/-- The per-face body of `CollectionData::add_fonts` (scan.rs): the closure
passed to `FontScanner::scan`, acting on the in-progress state. -/
structure ScanState where
  coll : CollectionData
  added_source : Bool
  count : Nat
  reg : Option Registration
  deriving DecidableEq, Repr

/-- The `entry(tag).or_default()` plus conditional push performed for each
non-Han declared script of an accepted face (scan.rs). -/
def pushFallback (c : CollectionData) (tag : Nat) (fid : FamilyId) :
    CollectionData :=
  let entry := (mapFind c.script_fallbacks tag).getD []
  { c with script_fallbacks := mapInsert c.script_fallbacks tag (pushUnique entry fid) }

/-- The per-script update of an accepted face (scan.rs lines 181-194). -/
def pushScript (fid : FamilyId) (c : CollectionData) (sc : Script × Cjk) :
    CollectionData :=
  if sc.1 = Script.Han then
    { c with cjk_families := c.cjk_families.push sc.2 fid }
  else
    pushFallback c (script_tag sc.1) fid

/-- The tail of the per-face closure once the family id is settled (scan.rs
lines 151-203): duplicate-triple check, one-time source append, ordered
insert into the family's font list, registration and per-script
bookkeeping, `FontData` append and count advance.  `c` is the collection as
left by the family lookup/creation.  The
`self.families.get_mut(..).unwrap()` of the source is a lookup at an index
every reachable state keeps in bounds; the unreachable out-of-range case is
modelled as skipping the face. -/
def addFontsFaceAt (sid : SourceId) (source : SourceData) (st : ScanState)
    (font : ScannedFont) (font_id : FontId) (family_id : FamilyId)
    (c : CollectionData) : ScanState :=
  match c.families[family_id.to_usize]? with
  | Option.none => { st with coll := c }
  | Option.some family =>
    let stretch := font.attributes.stretch
    let weight := font.attributes.weight
    let style := font.attributes.style
    if family.fonts.any (fun e =>
        e.stretch == stretch && e.weight == weight && e.style == style) then
      { st with coll := c }
    else
      let c := if !st.added_source then
          { c with sources := c.sources ++ [source] } else c
      let family := if stretch ≠ Stretch.NORMAL then
          { family with has_stretch := true } else family
      let pos := bsInsertIdx (fun e => e.weight) weight family.fonts
      let family := { family with
        fonts := family.fonts.insertIdx pos ⟨font_id, stretch, weight, style⟩ }
      let c := { c with families := c.families.set family_id.to_usize family }
      let reg := st.reg.map (fun r =>
        { families := if family_id ∈ r.families then r.families
                      else r.families ++ [family_id]
          fonts := r.fonts ++ [font_id] })
      let c := font.scripts.foldl (pushScript family_id) c
      let c := { c with fonts := c.fonts ++
        [{ family := family_id, source := sid, index := font.index,
           attributes := font.attributes, cache_key := font.cache_key }] }
      { coll := c, added_source := true, count := st.count + 1, reg := reg }

/-- The collection after the family-creation arm of the per-face closure
(scan.rs lines 137-150): push a fresh family and record it in the name
map. -/
def createFamily (c : CollectionData) (font : ScannedFont)
    (family_id : FamilyId) : CollectionData :=
  { c with
    families := c.families ++
      [{ name := font.name, has_stretch := false, fonts := [] }]
    family_map :=
      mapInsert c.family_map font.lowercase_name (Option.some family_id) }

/-- One face of `CollectionData::add_fonts` (scan.rs lines 124-204): font-id
allocation, family lookup (honouring a cached negative entry) or creation,
then the shared tail `addFontsFaceAt`. -/
def addFontsFace (sid : SourceId) (source : SourceData) (st : ScanState)
    (font : ScannedFont) : ScanState :=
  let c := st.coll
  match FontId.alloc c.fonts.length c.is_user with
  | Option.none => st
  | Option.some font_id =>
    match mapFind c.family_map font.lowercase_name with
    | Option.some Option.none => st
    | Option.some (Option.some family_id) =>
      addFontsFaceAt sid source st font font_id family_id c
    | Option.none =>
      match FamilyId.alloc c.families.length c.is_user with
      | Option.some family_id =>
        addFontsFaceAt sid source st font font_id family_id
          (createFamily c font family_id)
      | Option.none => st

/-- `CollectionData::add_fonts` (scan.rs lines 113-206).  `faces` is the
list of face records the external swash scanner emits for the blob; the
result packages the accepted count, the mutated collection and the mutated
registration (`none` only when the source-id allocation overflows, in which
case nothing was mutated). -/
def CollectionData.add_fonts (c : CollectionData) (faces : List ScannedFont)
    (source : SourceData) (reg : Option Registration) : Option ScanState :=
  match SourceId.alloc c.sources.length c.is_user with
  | Option.none => Option.none
  | Option.some source_id =>
    Option.some (faces.foldl (addFontsFace source_id source)
      { coll := c, added_source := false, count := 0, reg := reg })

/-- `CollectionData::fallback_families` (data.rs lines 163-178).  Returns
the list together with the possibly mutated collection: for a non-Han
script the source inserts an empty entry for the tag
(`entry(tag).or_default()`) before looking it up. -/
def CollectionData.fallback_families (c : CollectionData) (script : Script)
    (locale : Option Locale) : List FamilyId × CollectionData :=
  if script = Script.Han then
    let cjk := (locale.map Locale.cjk).getD Cjk.none
    (c.cjk_families.get cjk, c)
  else
    let tag := script_tag script
    let c := if mapContains c.script_fallbacks tag then c
             else { c with script_fallbacks := mapInsert c.script_fallbacks tag [] }
    match mapFind c.script_fallbacks tag with
    | Option.some families => (families, c)
    | Option.none => (c.default_families, c)

def CollectionData.default_families' (c : CollectionData) : List FamilyId :=
  c.default_families

/-- The lowercase form of a name (data.rs `LowercaseString::get`):
character-wise lowercasing, on which the source's ASCII fast path and
unicode slow path agree for the names considered here. -/
def lowercase (s : String) : String := ⟨s.data.map Char.toLower⟩

/-- `CollectionData::family_id` (data.rs lines 109-136) in the case where
the platform name resolver (`system_source.select_family_by_name`, an
external collaborator) fails to resolve the name: the Err branch caches a
negative entry — keyed by the *original* `name`, not the lowercase form —
and the final lookup is by the lowercase form. -/
def CollectionData.family_id_miss (c : CollectionData) (name : String) :
    Option FamilyId × CollectionData :=
  let lowercase_name := lowercase name
  let c :=
    if mapContains c.family_map lowercase_name then c
    else { c with family_map := mapInsert c.family_map name Option.none }
  match mapFind c.family_map lowercase_name with
  | Option.some family_id => (family_id, c)
  | Option.none => (Option.none, c)

/-- Outcome of one `load_source` call: the returned bytes, the status cell
afterwards, and how many filesystem reads were performed. -/
structure LoadOutcome where
  result : Option FontBytes
  status : SourceDataStatus
  fs_reads : Nat
  deriving DecidableEq, Repr

/-- The filesystem read of `load_source` (data.rs lines 425-430): `fs` is
the outcome `FontData::from_file` would produce on this call.  On success
the cell stores a fresh weak reference; on failure it stores `Error`. -/
def load_source_read (fs : Option FontBytes) : LoadOutcome :=
  match fs with
  | Option.some d => ⟨Option.some d, SourceDataStatus.present ⟨Option.some d⟩, 1⟩
  | Option.none => ⟨Option.none, SourceDataStatus.error, 1⟩

/-- The write-locked re-check of `load_source` (data.rs lines 415-424). -/
def load_source_locked (status : SourceDataStatus) (fs : Option FontBytes) :
    LoadOutcome :=
  match status with
  | SourceDataStatus.present w =>
    match w.upgrade with
    | Option.some d => ⟨Option.some d, status, 0⟩
    | Option.none => load_source_read fs
  | SourceDataStatus.error => ⟨Option.none, status, 0⟩
  | SourceDataStatus.vacant => load_source_read fs

/-- `load_source` (data.rs lines 405-431): double-checked single-flight
cache fill, sequentially the status observed under the write lock is the
one observed under the read lock. -/
def load_source (status : SourceDataStatus) (fs : Option FontBytes) :
    LoadOutcome :=
  match status with
  | SourceDataStatus.present w =>
    match w.upgrade with
    | Option.some d => ⟨Option.some d, status, 0⟩
    | Option.none => load_source_locked status fs
  | SourceDataStatus.error => ⟨Option.none, status, 0⟩
  | SourceDataStatus.vacant => load_source_locked status fs

/-- Outcome of `CollectionData::load`: result, mutated collection (the
status cell lives inside the source entry) and filesystem read count. -/
structure CollLoadOutcome where
  result : Option FontBytes
  coll : CollectionData
  fs_reads : Nat
  deriving DecidableEq, Repr

/-- `CollectionData::load` (data.rs lines 300-309): an owned-buffer source
returns its bytes without touching the status cell; a path source goes
through `load_source`. -/
def CollectionData.load (c : CollectionData) (id : SourceId)
    (fs : Option FontBytes) : CollLoadOutcome :=
  match c.sources[id.to_usize]? with
  | Option.none => ⟨Option.none, c, 0⟩
  | Option.some sd =>
    match sd.kind with
    | SourceDataKind.data d => ⟨Option.some d, c, 0⟩
    | SourceDataKind.path _ =>
      let out := load_source sd.status fs
      ⟨out.result,
       { c with sources := c.sources.set id.to_usize { sd with status := out.status } },
       out.fs_reads⟩

/-- data.rs `StaticScriptFallbacks`: one entry of the precompiled
script-fallback table. -/
structure StaticScriptFallbacks where
  script : Nat
  families : List FamilyId
  deriving DecidableEq, Repr

/-- data.rs `StaticCollectionData`: the compiled-in read-only table
(restricted to the fields the claims touch; the per-family and per-font
tables are carried opaquely so that "state unchanged" is meaningful). -/
structure StaticCollectionData where
  families : List FamilyData
  default_families : List FamilyId
  script_fallbacks : List StaticScriptFallbacks
  cjk_families : CjkFamilies
  deriving DecidableEq, Repr

/-- `StaticCollection::fallback_families` (data.rs lines 364-383), identical
to `StaticCollectionData::fallback_families` (lines 608-625): Han selects by
the locale's CJK `as usize` discriminant (absent locale is index 0), other
scripts binary-search the precompiled tag table and fall back to the
default-family list on a miss. -/
def StaticCollectionData.fallback_families (s : StaticCollectionData)
    (script : Script) (locale : Option Locale) : List FamilyId :=
  if script = Script.Han then
    let cjk := (locale.map (fun l => (Locale.cjk l).toIndex)).getD 0
    s.cjk_families.getIdx cjk
  else
    let tag := script_tag script
    match rustBinarySearch (fun e => e.script) tag s.script_fallbacks 0
        s.script_fallbacks.length with
    | Sum.inl index =>
      ((s.script_fallbacks[index]?).map (fun e => e.families)).getD []
    | Sum.inr _ => s.default_families

/-- data.rs `SystemCollectionData`: the tagged union of the two backings. -/
inductive SystemCollectionData where
  | static (s : StaticCollectionData)
  | scanned (c : CollectionData)
  deriving DecidableEq, Repr

/-- Result of `SystemCollectionData::add_fonts`: the `Option<u32>` return
value plus the mutated backing and registration. -/
structure SysAddResult where
  count : Option Nat
  system : SystemCollectionData
  reg : Option Registration
  deriving DecidableEq, Repr

/-- `SystemCollectionData::add_fonts` (data.rs lines 490-502): the static
arm returns `None` without any mutation; the scanned arm delegates to
`CollectionData::add_fonts`. -/
def SystemCollectionData.add_fonts (sys : SystemCollectionData)
    (faces : List ScannedFont) (source : SourceData)
    (reg : Option Registration) : SysAddResult :=
  match sys with
  | SystemCollectionData.static s => ⟨Option.none, SystemCollectionData.static s, reg⟩
  | SystemCollectionData.scanned c =>
    match c.add_fonts faces source reg with
    | Option.none => ⟨Option.none, SystemCollectionData.scanned c, reg⟩
    | Option.some st => ⟨Option.some st.count, SystemCollectionData.scanned st.coll, st.reg⟩

/-- `SystemCollectionData::fallback_families` (data.rs lines 543-548). -/
def SystemCollectionData.fallback_families (sys : SystemCollectionData)
    (script : Script) (locale : Option Locale) :
    List FamilyId × SystemCollectionData :=
  match sys with
  | SystemCollectionData.static s =>
    (s.fallback_families script locale, SystemCollectionData.static s)
  | SystemCollectionData.scanned c =>
    let r := c.fallback_families script locale
    (r.1, SystemCollectionData.scanned r.2)

/-- library.rs `Library` / `Inner`: the shared system collection, the
authoritative user collection, and the monotonic user version counter. -/
structure Library where
  system : SystemCollectionData
  user : CollectionData
  user_version : Nat
  deriving DecidableEq, Repr

/-- The context's cached snapshot: the `Arc<(u64, CollectionData)>` held in
`FontContext::user`. -/
structure Snapshot where
  version : Nat
  coll : CollectionData
  deriving DecidableEq, Repr

/-- `CollectionData::clone_into` (data.rs lines 311-322): clears and copies
families, fonts, sources and the name map into the destination; the
destination's remaining fields are left as they were. -/
def CollectionData.clone_into (src : CollectionData) (dst : CollectionData) :
    CollectionData :=
  { dst with
    families := src.families
    fonts := src.fonts
    sources := src.sources
    family_map := src.family_map }

/-- The spec's validity notion for a cached snapshot: the captured version
equals the library's current version counter. -/
def snapshotValid (lib : Library) (snap : Snapshot) : Prop :=
  snap.version = lib.user_version

/-- `FontContext::sync_user` (context.rs lines 151-161): on a version
mismatch, copy the authoritative user collection into a private copy of the
snapshot and stamp the current version. -/
def FontContext.sync_user (lib : Library) (snap : Snapshot) : Snapshot :=
  if snap.version ≠ lib.user_version then
    { version := lib.user_version, coll := lib.user.clone_into snap.coll }
  else snap

/-- The in-memory `SourceData` that `register_fonts` builds around the
registered blob. -/
def registrationSource (data : FontBytes) : SourceData :=
  { kind := SourceDataKind.data data, status := SourceDataStatus.vacant }

/-- `FontContext::register_fonts` (context.rs lines 129-149): adds the
blob's faces to `library.inner.system` — the system collection — with a
fresh default `Registration`; on a non-zero accepted count it bumps the
user version counter and returns the registration, otherwise `None`.
`faces` is the face list the scanner emits for the blob. -/
def FontContext.register_fonts (lib : Library) (faces : List ScannedFont)
    (data : FontBytes) : Option Registration × Library :=
  let source := registrationSource data
  let res := lib.system.add_fonts faces source
    (Option.some { families := [], fonts := [] })
  let count := res.count.getD 0
  if count ≠ 0 then
    (res.reg, { lib with system := res.system, user_version := lib.user_version + 1 })
  else
    (Option.none, { lib with system := res.system })

/-! ### Helper lemmas and concrete example states -/

theorem list_set_getElem?_self {α : Type} :
    ∀ (l : List α) (i : Nat) (a : α), l[i]? = some a → l.set i a = l
  | [], i, a, h => by simp at h
  | x :: xs, 0, a, h => by
    simp only [List.getElem?_cons_zero, Option.some.injEq] at h
    simp [h]
  | x :: xs, i + 1, a, h => by
    simp only [List.getElem?_cons_succ] at h
    simp [List.set, list_set_getElem?_self xs i a h]

theorem mapFind_insert_self {κ α : Type} [BEq κ] [LawfulBEq κ]
    (m : List (κ × α)) (k : κ) (v : α) :
    mapFind (mapInsert m k v) k = some v := by
  simp [mapFind, mapInsert, List.find?]

theorem mapFind_insert_other {κ α : Type} [BEq κ] [LawfulBEq κ]
    (m : List (κ × α)) (k k' : κ) (v : α) (h : k' ≠ k) :
    mapFind (mapInsert m k v) k' = mapFind m k' := by
  simp only [mapFind, mapInsert]
  rw [List.find?_cons_of_neg _ (by simpa using fun hkk => h hkk.symm)]
  congr 1
  induction m with
  | nil => rfl
  | cons a m ih =>
    by_cases ha : a.1 == k
    · have ha' : (a.1 == k') = false := by
        have : a.1 = k := by simpa using ha
        subst this
        simpa using fun hkk => h hkk.symm
      simp [List.filter, ha, List.find?, ha', ih]
    · by_cases hk' : a.1 == k'
      · simp [List.filter, ha, List.find?, hk']
      · simp [List.filter, ha, List.find?, hk', ih]

/-- The empty dynamic collection (`CollectionData::new`, system flavour). -/
def emptyCollection : CollectionData := CollectionData.new

/-- A face record for a single regular face named "Foo" (weight 400, normal
stretch and style, no declared writing systems). -/
def fooFace : ScannedFont :=
  { name := "Foo", lowercase_name := "foo", index := 0,
    attributes := ⟨Stretch.NORMAL, 400, 0⟩, cache_key := 0, scripts := [] }

/-- An in-memory source used by the concrete examples. -/
def srcShared : SourceData := ⟨SourceDataKind.data [1, 2], SourceDataStatus.vacant⟩

/-! ### C4: sticky load errors -/

/-- C4: for a path-backed source whose load-status cell holds `Error`,
`load` returns nothing, performs no filesystem read, and leaves the
collection — in particular the `Error` status — unchanged. -/
theorem claim4_error_sticky (c : CollectionData) (id : SourceId) (p : String)
    (sd : SourceData) (fs : Option FontBytes)
    (hsd : c.sources[id.to_usize]? = some sd)
    (hkind : sd.kind = SourceDataKind.path p)
    (hstatus : sd.status = SourceDataStatus.error) :
    (c.load id fs).result = Option.none ∧ (c.load id fs).fs_reads = 0 ∧
      (c.load id fs).coll = c := by
  obtain ⟨kind, status⟩ := sd
  simp only at hkind hstatus
  subst hkind
  subst hstatus
  have hset := list_set_getElem?_self c.sources id.to_usize _ hsd
  simp [CollectionData.load, hsd, load_source, hset]

/-- A collection holding a single path source stuck in the `Error` state. -/
def cErr : CollectionData :=
  { CollectionData.new with
    sources := [⟨SourceDataKind.path "a.ttf", SourceDataStatus.error⟩] }

theorem claim4_error_sticky_witness :
    (cErr.load ⟨0, false⟩ (Option.some [3])).result = Option.none ∧
      (cErr.load ⟨0, false⟩ (Option.some [3])).fs_reads = 0 ∧
      (cErr.load ⟨0, false⟩ (Option.some [3])).coll = cErr :=
  claim4_error_sticky cErr ⟨0, false⟩ "a.ttf"
    ⟨SourceDataKind.path "a.ttf", SourceDataStatus.error⟩
    (Option.some [3]) (by decide) rfl rfl

/-! ### C9: the static backing is read-only -/

/-- C9: `add_fonts` against the static backing always returns the absent
result and leaves both the static collection and the registration
unchanged. -/
theorem claim9_static_register_fails (s : StaticCollectionData)
    (faces : List ScannedFont) (source : SourceData)
    (reg : Option Registration) :
    SystemCollectionData.add_fonts (SystemCollectionData.static s) faces
        source reg =
      ⟨Option.none, SystemCollectionData.static s, reg⟩ := rfl

/-! ### C6: Han resolves through the CJK-variant lists -/

/-- C6: for the Han script, both backings return the precomputed list of the
locale's CJK variant (the `none` variant when the locale is absent), for
every collection state — in particular any `script_fallbacks` entry under
Han's tag is ignored, and the dynamic backing is not mutated. -/
theorem claim6_han_cjk (c : CollectionData) (s : StaticCollectionData)
    (locale : Option Locale) :
    c.fallback_families Script.Han locale =
      (c.cjk_families.get ((locale.map Locale.cjk).getD Cjk.none), c) ∧
    s.fallback_families Script.Han locale =
      s.cjk_families.get ((locale.map Locale.cjk).getD Cjk.none) := by
  constructor
  · simp [CollectionData.fallback_families]
  · cases locale with
    | none =>
      simp [StaticCollectionData.fallback_families, CjkFamilies.getIdx,
        CjkFamilies.get]
    | some l =>
      obtain ⟨v⟩ := l
      cases v <;>
        simp [StaticCollectionData.fallback_families, Locale.cjk, Cjk.toIndex,
          CjkFamilies.getIdx, CjkFamilies.get]

/-! ### C3: snapshot synchronization -/

/-- C3: whenever `sync_user` observes a version differing from the library's
counter, the resulting snapshot is valid (stamped with the current version)
and its families, fonts, sources and name map equal the authoritative user
collection's. -/
theorem claim3_sync_user (lib : Library) (snap : Snapshot)
    (h : snap.version ≠ lib.user_version) :
    snapshotValid lib (FontContext.sync_user lib snap) ∧
    (FontContext.sync_user lib snap).coll.families = lib.user.families ∧
    (FontContext.sync_user lib snap).coll.fonts = lib.user.fonts ∧
    (FontContext.sync_user lib snap).coll.sources = lib.user.sources ∧
    (FontContext.sync_user lib snap).coll.family_map = lib.user.family_map := by
  simp [FontContext.sync_user, h, snapshotValid, CollectionData.clone_into]

/-- A library whose user collection holds one family, and a stale snapshot. -/
def libStale : Library :=
  { system := SystemCollectionData.scanned emptyCollection
    user := { emptyCollection with
      is_user := true
      families := [{ name := "Foo", has_stretch := false, fonts := [] }]
      family_map := [("foo", Option.some ⟨0, true⟩)] }
    user_version := 3 }

def snapStale : Snapshot := { version := 1, coll := emptyCollection }

theorem claim3_sync_user_witness :
    snapshotValid libStale (FontContext.sync_user libStale snapStale) ∧
    (FontContext.sync_user libStale snapStale).coll.families =
      libStale.user.families ∧
    (FontContext.sync_user libStale snapStale).coll.fonts =
      libStale.user.fonts ∧
    (FontContext.sync_user libStale snapStale).coll.sources =
      libStale.user.sources ∧
    (FontContext.sync_user libStale snapStale).coll.family_map =
      libStale.user.family_map :=
  claim3_sync_user libStale snapStale (by decide)

/-! ### C2: unregistered non-Han scripts -/

/-- A dynamic collection with a non-empty default-family list and no
registered script fallbacks. -/
def cDefaults : CollectionData :=
  { CollectionData.new with default_families := [⟨0, false⟩] }

/-- C2 counterexample: on the dynamic backing, a non-Han script with no
registered fallback list does *not* resolve to the default-family list —
`fallback_families` inserts an empty entry for the tag and returns that
empty list, here against a non-empty default list. -/
theorem claim2_counterexample :
    (cDefaults.fallback_families (Script.other 0) Option.none).1 = [] ∧
    cDefaults.default_families = [⟨0, false⟩] ∧
    (cDefaults.fallback_families (Script.other 0) Option.none).1 ≠
      cDefaults.default_families := by decide

/-- If Rust's binary search reports `Ok(i)`, the element at `i` has the
target key; in particular a key absent from the list can never yield `Ok`. -/
theorem rustBinarySearchGo_inl {α : Type} (key : α → Nat) (target : Nat)
    (l : List α) :
    ∀ (fuel left right i : Nat),
      rustBinarySearchGo key target l fuel left right = Sum.inl i →
      ∃ x, l[i]? = some x ∧ key x = target := by
  intro fuel
  induction fuel with
  | zero =>
    intro left right i h
    exact absurd h (by simp [rustBinarySearchGo])
  | succ n ih =>
    intro left right i h
    rw [rustBinarySearchGo] at h
    by_cases hlr : left < right
    · rw [if_pos hlr] at h
      cases hm : l[left + (right - left) / 2]? with
      | none =>
        rw [hm] at h
        exact absurd h (by simp)
      | some x =>
        rw [hm] at h
        dsimp only at h
        by_cases h1 : key x < target
        · rw [if_pos h1] at h
          exact ih _ _ _ h
        · rw [if_neg h1] at h
          by_cases h2 : target < key x
          · rw [if_pos h2] at h
            exact ih _ _ _ h
          · rw [if_neg h2] at h
            simp only [Sum.inl.injEq] at h
            subst h
            exact ⟨x, hm, by omega⟩
    · rw [if_neg hlr] at h
      exact absurd h (by simp)

theorem rustBinarySearch_inl {α : Type} (key : α → Nat) (target : Nat)
    (l : List α) (left right i : Nat)
    (h : rustBinarySearch key target l left right = Sum.inl i) :
    ∃ x, l[i]? = some x ∧ key x = target :=
  rustBinarySearchGo_inl key target l (right - left) left right i h

/-- C2 amended: for a non-Han script with no registered fallback list, the
*static* backing returns exactly the default-family list; the *dynamic*
backing instead inserts an empty fallback entry for the script's tag and
returns that empty list (not the defaults). -/
theorem claim2_amended (c : CollectionData) (s : StaticCollectionData)
    (script : Script) (locale : Option Locale)
    (hscript : script ≠ Script.Han)
    (hdyn : mapFind c.script_fallbacks (script_tag script) = Option.none)
    (hstat : ∀ e ∈ s.script_fallbacks, e.script ≠ script_tag script) :
    (c.fallback_families script locale).1 = [] ∧
    mapFind (c.fallback_families script locale).2.script_fallbacks
      (script_tag script) = Option.some [] ∧
    s.fallback_families script locale = s.default_families := by
  refine ⟨?_, ?_, ?_⟩
  · simp [CollectionData.fallback_families, hscript, mapContains, hdyn,
      mapFind_insert_self]
  · simp [CollectionData.fallback_families, hscript, mapContains, hdyn,
      mapFind_insert_self]
  · simp only [StaticCollectionData.fallback_families, if_neg hscript]
    cases hbs : rustBinarySearch (fun e => e.script) (script_tag script)
        s.script_fallbacks 0 s.script_fallbacks.length with
    | inl i =>
      obtain ⟨x, hx, hkey⟩ := rustBinarySearch_inl _ _ _
        0 s.script_fallbacks.length i hbs
      exact absurd hkey (hstat x (List.getElem?_mem hx))
    | inr i => rfl

/-- A static table with one registered tag (17) and a default list. -/
def sStat : StaticCollectionData :=
  { families := []
    default_families := [⟨2, false⟩]
    script_fallbacks := [⟨17, [⟨5, false⟩]⟩]
    cjk_families := ⟨[], [], [], [], []⟩ }

theorem claim2_amended_witness :
    (cDefaults.fallback_families (Script.other 0) Option.none).1 = [] ∧
    mapFind (cDefaults.fallback_families (Script.other 0) Option.none).2.script_fallbacks
      (script_tag (Script.other 0)) = Option.some [] ∧
    sStat.fallback_families (Script.other 0) Option.none =
      sStat.default_families :=
  claim2_amended cDefaults sStat (Script.other 0) Option.none
    (by decide) (by decide) (by decide)

/-! ### C5: duplicate (stretch, weight, style) triples are rejected -/

/-- C5: a face whose (stretch, weight, style) triple already exists in its
family is rejected outright: the ingestion step leaves the whole scan state
unchanged — the family keeps exactly the font entries it had (in particular
the one entry for that triple), no `FontData` record is appended, the
source list and the registration are untouched, and the count does not
advance. -/
theorem claim5_duplicate_rejected (sid : SourceId) (src : SourceData)
    (st : ScanState) (face : ScannedFont) (fid : FamilyId) (fam : FamilyData)
    (hmap : mapFind st.coll.family_map face.lowercase_name =
      Option.some (Option.some fid))
    (hfam : st.coll.families[fid.to_usize]? = Option.some fam)
    (hdup : fam.fonts.any (fun e =>
        e.stretch == face.attributes.stretch &&
        e.weight == face.attributes.weight &&
        e.style == face.attributes.style) = true) :
    addFontsFace sid src st face = st := by
  unfold addFontsFace
  cases halloc : FontId.alloc st.coll.fonts.length st.coll.is_user with
  | none => simp [halloc]
  | some font_id => simp [halloc, hmap, addFontsFaceAt, hfam, hdup]

/-- The "foo" family already holding a normal-stretch weight-400 face — the
same triple that `fooFace` carries. -/
def famDup : FamilyData :=
  { name := "Foo", has_stretch := false,
    fonts := [⟨⟨0, false⟩, Stretch.NORMAL, 400, 0⟩] }

/-- A scan state whose collection already holds `famDup`. -/
def stDup : ScanState :=
  { coll := { emptyCollection with
      families := [famDup]
      fonts := [{ family := ⟨0, false⟩, source := ⟨0, false⟩, index := 0,
                  attributes := ⟨Stretch.NORMAL, 400, 0⟩, cache_key := 0 }]
      family_map := [("foo", Option.some ⟨0, false⟩)] }
    added_source := false
    count := 0
    reg := Option.some ⟨[], []⟩ }

theorem claim5_duplicate_rejected_witness :
    addFontsFace ⟨0, false⟩ srcShared stDup fooFace = stDup :=
  claim5_duplicate_rejected ⟨0, false⟩ srcShared stDup fooFace ⟨0, false⟩
    famDup (by decide) (by decide) (by decide)

/-! ### C8: source-list bookkeeping of one ingestion call -/

theorem pushScript_preserves (fid : FamilyId) (c : CollectionData)
    (sc : Script × Cjk) :
    (pushScript fid c sc).is_user = c.is_user ∧
    (pushScript fid c sc).families = c.families ∧
    (pushScript fid c sc).fonts = c.fonts ∧
    (pushScript fid c sc).sources = c.sources ∧
    (pushScript fid c sc).family_map = c.family_map := by
  unfold pushScript pushFallback
  split <;> simp

theorem foldl_pushScript_preserves (fid : FamilyId) :
    ∀ (scripts : List (Script × Cjk)) (c : CollectionData),
    (scripts.foldl (pushScript fid) c).is_user = c.is_user ∧
    (scripts.foldl (pushScript fid) c).families = c.families ∧
    (scripts.foldl (pushScript fid) c).fonts = c.fonts ∧
    (scripts.foldl (pushScript fid) c).sources = c.sources ∧
    (scripts.foldl (pushScript fid) c).family_map = c.family_map
  | [], c => by simp
  | sc :: scripts, c => by
    have h1 := pushScript_preserves fid c sc
    have h2 := foldl_pushScript_preserves fid scripts (pushScript fid c sc)
    simp only [List.foldl_cons]
    exact ⟨h2.1.trans h1.1, h2.2.1.trans h1.2.1, h2.2.2.1.trans h1.2.2.1,
      h2.2.2.2.1.trans h1.2.2.2.1, h2.2.2.2.2.trans h1.2.2.2.2⟩

theorem foldl_pushScript_is_user (fid : FamilyId)
    (scripts : List (Script × Cjk)) (c : CollectionData) :
    (scripts.foldl (pushScript fid) c).is_user = c.is_user :=
  (foldl_pushScript_preserves fid scripts c).1

theorem foldl_pushScript_families (fid : FamilyId)
    (scripts : List (Script × Cjk)) (c : CollectionData) :
    (scripts.foldl (pushScript fid) c).families = c.families :=
  (foldl_pushScript_preserves fid scripts c).2.1

theorem foldl_pushScript_fonts (fid : FamilyId)
    (scripts : List (Script × Cjk)) (c : CollectionData) :
    (scripts.foldl (pushScript fid) c).fonts = c.fonts :=
  (foldl_pushScript_preserves fid scripts c).2.2.1

theorem foldl_pushScript_sources (fid : FamilyId)
    (scripts : List (Script × Cjk)) (c : CollectionData) :
    (scripts.foldl (pushScript fid) c).sources = c.sources :=
  (foldl_pushScript_preserves fid scripts c).2.2.2.1

theorem foldl_pushScript_family_map (fid : FamilyId)
    (scripts : List (Script × Cjk)) (c : CollectionData) :
    (scripts.foldl (pushScript fid) c).family_map = c.family_map :=
  (foldl_pushScript_preserves fid scripts c).2.2.2.2

/-- Source-append bookkeeping within one ingestion call: nothing appended
before the first accepted face, exactly one source appended from then on,
and the source has been appended exactly when the count is non-zero. -/
def SourceInv (base : List SourceData) (st : ScanState) : Prop :=
  (st.added_source = false ∧ st.count = 0 ∧ st.coll.sources = base) ∨
  (st.added_source = true ∧ st.count ≠ 0 ∧
    st.coll.sources.length = base.length + 1)

theorem addFontsFaceAt_sourceInv (base : List SourceData) (sid : SourceId)
    (src : SourceData) (st : ScanState) (font : ScannedFont)
    (font_id : FontId) (family_id : FamilyId) (c : CollectionData)
    (hsrc : c.sources = st.coll.sources)
    (h : SourceInv base st) :
    SourceInv base (addFontsFaceAt sid src st font font_id family_id c) := by
  unfold addFontsFaceAt
  cases hfam : c.families[family_id.to_usize]? with
  | none => simpa [SourceInv, hsrc] using h
  | some family =>
    dsimp only
    split
    · simpa [SourceInv, hsrc] using h
    · rcases h with ⟨ha, hc, hs⟩ | ⟨ha, hc, hs⟩
      · refine Or.inr ⟨rfl, Nat.succ_ne_zero _, ?_⟩
        simp [foldl_pushScript_sources, ha, hsrc, hs]
      · refine Or.inr ⟨rfl, Nat.succ_ne_zero _, ?_⟩
        simp [foldl_pushScript_sources, ha, hsrc, hs]

theorem addFontsFace_sourceInv (base : List SourceData) (sid : SourceId)
    (src : SourceData) (st : ScanState) (font : ScannedFont)
    (h : SourceInv base st) :
    SourceInv base (addFontsFace sid src st font) := by
  unfold addFontsFace
  dsimp only
  cases FontId.alloc st.coll.fonts.length st.coll.is_user with
  | none => exact h
  | some font_id =>
    dsimp only
    cases hm : mapFind st.coll.family_map font.lowercase_name with
    | none =>
      dsimp only
      cases FamilyId.alloc st.coll.families.length st.coll.is_user with
      | none => exact h
      | some family_id =>
        exact addFontsFaceAt_sourceInv base sid src st font font_id family_id _
          (by simp [createFamily]) h
    | some v =>
      cases v with
      | none => exact h
      | some family_id =>
        exact addFontsFaceAt_sourceInv base sid src st font font_id family_id _
          rfl h

theorem foldl_addFontsFace_sourceInv (base : List SourceData)
    (sid : SourceId) (src : SourceData) :
    ∀ (faces : List ScannedFont) (st : ScanState), SourceInv base st →
      SourceInv base (faces.foldl (addFontsFace sid src) st)
  | [], _, h => h
  | f :: faces, st, h =>
    foldl_addFontsFace_sourceInv base sid src faces _
      (addFontsFace_sourceInv base sid src st f h)

/-- C8 counterexample: an ingestion call whose blob yields zero faces
appends zero `SourceData` entries, not one. -/
theorem claim8_counterexample :
    (CollectionData.add_fonts emptyCollection [] srcShared Option.none).map
      (fun st => st.coll.sources.length) = Option.some 0 ∧ (0 : Nat) ≠ 1 :=
  ⟨rfl, by decide⟩

/-- C8 amended: one ingestion call appends exactly one `SourceData` when it
accepts at least one face, and none at all otherwise (in particular for an
empty or fully rejected blob), regardless of how many faces the blob
contained. -/
theorem claim8_amended (c : CollectionData) (faces : List ScannedFont)
    (source : SourceData) (reg : Option Registration) (st : ScanState)
    (h : CollectionData.add_fonts c faces source reg = Option.some st) :
    st.coll.sources.length =
      c.sources.length + (if st.count = 0 then 0 else 1) := by
  unfold CollectionData.add_fonts at h
  cases halloc : SourceId.alloc c.sources.length c.is_user with
  | none =>
    rw [halloc] at h
    exact absurd h (by simp)
  | some source_id =>
    rw [halloc] at h
    simp only [Option.some.injEq] at h
    subst h
    have hinv := foldl_addFontsFace_sourceInv c.sources source_id source faces
      { coll := c, added_source := false, count := 0, reg := reg }
      (Or.inl ⟨rfl, rfl, rfl⟩)
    rcases hinv with ⟨_, hc, hs⟩ | ⟨_, hc, hs⟩
    · simp [hc, hs]
    · simp [hs, hc]

/-- The scan state produced by ingesting the single face `fooFace` into the
empty collection. -/
def stW8 : ScanState :=
  (CollectionData.add_fonts emptyCollection [fooFace] srcShared
      Option.none).getD
    { coll := emptyCollection, added_source := false, count := 0,
      reg := Option.none }

theorem claim8_amended_witness :
    stW8.coll.sources.length =
      emptyCollection.sources.length + (if stW8.count = 0 then 0 else 1) :=
  claim8_amended emptyCollection [fooFace] srcShared Option.none stW8
    (by decide)

/-! ### C10: negative name-cache entries and ingestion -/

/-- The shared ingestion tail never touches the name map. -/
theorem addFontsFaceAt_family_map (sid : SourceId) (src : SourceData)
    (st : ScanState) (font : ScannedFont) (font_id : FontId)
    (family_id : FamilyId) (c : CollectionData) :
    (addFontsFaceAt sid src st font font_id family_id c).coll.family_map =
      c.family_map := by
  unfold addFontsFaceAt
  cases hfam : c.families[family_id.to_usize]? with
  | none => rfl
  | some family =>
    dsimp only
    split
    · rfl
    · dsimp only
      rw [foldl_pushScript_family_map]
      split <;> rfl

/-- A cached negative name entry survives one face of ingestion, and a face
carrying exactly that lowercase name leaves the whole state untouched. -/
theorem addFontsFace_negEntry (key : String) (sid : SourceId)
    (src : SourceData) (st : ScanState) (font : ScannedFont)
    (h : mapFind st.coll.family_map key = Option.some Option.none) :
    mapFind (addFontsFace sid src st font).coll.family_map key =
      Option.some Option.none ∧
    (font.lowercase_name = key → addFontsFace sid src st font = st) := by
  constructor
  · unfold addFontsFace
    dsimp only
    cases FontId.alloc st.coll.fonts.length st.coll.is_user with
    | none => exact h
    | some font_id =>
      dsimp only
      cases hm : mapFind st.coll.family_map font.lowercase_name with
      | none =>
        dsimp only
        cases FamilyId.alloc st.coll.families.length st.coll.is_user with
        | none => exact h
        | some family_id =>
          rw [addFontsFaceAt_family_map]
          have hne : key ≠ font.lowercase_name := by
            intro he
            rw [← he, h] at hm
            exact Option.noConfusion hm
          simp only [createFamily]
          rw [mapFind_insert_other _ _ _ _ hne]
          exact h
      | some v =>
        cases v with
        | none => exact h
        | some family_id =>
          rw [addFontsFaceAt_family_map]
          exact h
  · intro hkey
    unfold addFontsFace
    dsimp only
    cases halloc : FontId.alloc st.coll.fonts.length st.coll.is_user with
    | none => rfl
    | some font_id =>
      dsimp only
      rw [hkey, h]

theorem foldl_addFontsFace_negEntry (key : String) (sid : SourceId)
    (src : SourceData) :
    ∀ (faces : List ScannedFont) (st : ScanState),
      mapFind st.coll.family_map key = Option.some Option.none →
      mapFind ((faces.foldl (addFontsFace sid src) st)).coll.family_map key =
        Option.some Option.none
  | [], _, h => h
  | f :: faces, st, h =>
    foldl_addFontsFace_negEntry key sid src faces _
      ((addFontsFace_negEntry key sid src st f h).1)

/-- C10 counterexample: after a failed by-name lookup of "Foo", the negative
entry is cached under "Foo" itself — not under the lowercase "foo" the
claim promises — and a subsequent ingestion of a face whose resolved
lowercase family name is "foo" is not rejected: the family is created under
that name and the face accepted. -/
theorem claim10_counterexample :
    (emptyCollection.family_id_miss "Foo").1 = Option.none ∧
    mapFind (emptyCollection.family_id_miss "Foo").2.family_map "Foo" =
      Option.some Option.none ∧
    mapFind (emptyCollection.family_id_miss "Foo").2.family_map "foo" =
      Option.none ∧
    ((CollectionData.add_fonts (emptyCollection.family_id_miss "Foo").2
        [fooFace] srcShared Option.none).map
      (fun st => (st.coll.families.map (fun f => f.name), st.count))) =
      Option.some (["Foo"], 1) := by decide

/-- C10 amended: the negative entry is cached under the queried name
verbatim, so the two keys coincide exactly when the failed query was
already in lowercase.  For an already-lowercase uncached name, a failed
lookup returns nothing and caches the negative entry under it; thereafter
every ingested face whose resolved lowercase family name equals that key is
skipped without any state change, and the negative entry survives every
ingestion call, so no family ever becomes reachable under that name. -/
theorem claim10_amended (c₀ : CollectionData) (qname : String)
    (hlow : lowercase qname = qname)
    (hnew : mapContains c₀.family_map qname = false) :
    ((c₀.family_id_miss qname).1 = Option.none ∧
     mapFind (c₀.family_id_miss qname).2.family_map qname =
       Option.some Option.none) ∧
    (∀ (st : ScanState) (sid : SourceId) (src : SourceData)
       (font : ScannedFont),
       mapFind st.coll.family_map qname = Option.some Option.none →
       font.lowercase_name = qname →
       addFontsFace sid src st font = st) ∧
    (∀ (c : CollectionData) (faces : List ScannedFont) (src : SourceData)
       (reg : Option Registration) (st : ScanState),
       mapFind c.family_map qname = Option.some Option.none →
       CollectionData.add_fonts c faces src reg = Option.some st →
       mapFind st.coll.family_map qname = Option.some Option.none) := by
  refine ⟨?_, ?_, ?_⟩
  · unfold CollectionData.family_id_miss
    rw [hlow]
    dsimp only
    simp [hnew, mapFind_insert_self]
  · intro st sid src font hneg hkey
    exact (addFontsFace_negEntry qname sid src st font hneg).2 hkey
  · intro c faces src reg st hneg hadd
    unfold CollectionData.add_fonts at hadd
    cases halloc : SourceId.alloc c.sources.length c.is_user with
    | none =>
      rw [halloc] at hadd
      exact absurd hadd (by simp)
    | some source_id =>
      rw [halloc] at hadd
      simp only [Option.some.injEq] at hadd
      subst hadd
      exact foldl_addFontsFace_negEntry qname source_id src faces
        { coll := c, added_source := false, count := 0, reg := reg } hneg

/-- A collection carrying a negative cache entry for "foo". -/
def cNeg : CollectionData :=
  { emptyCollection with family_map := [("foo", Option.none)] }

/-- A scan state over `cNeg`. -/
def stNeg : ScanState :=
  { coll := cNeg, added_source := false, count := 0, reg := Option.none }

/-- The scan state produced by ingesting `fooFace` against `cNeg`. -/
def stW10 : ScanState :=
  (CollectionData.add_fonts cNeg [fooFace] srcShared Option.none).getD stNeg

theorem claim10_amended_witness :
    ((emptyCollection.family_id_miss "foo").1 = Option.none ∧
     mapFind (emptyCollection.family_id_miss "foo").2.family_map "foo" =
       Option.some Option.none) ∧
    addFontsFace ⟨0, false⟩ srcShared stNeg fooFace = stNeg ∧
    mapFind stW10.coll.family_map "foo" = Option.some Option.none := by
  obtain ⟨h1, h2, h3⟩ :=
    claim10_amended emptyCollection "foo" (by decide) (by decide)
  exact ⟨h1,
    h2 stNeg ⟨0, false⟩ srcShared fooFace (by decide) (by decide),
    h3 cNeg [fooFace] srcShared Option.none stW10 (by decide) (by decide)⟩

/-! ### C7: families stay sorted ascending by weight -/

theorem sorted_key_mono {α : Type} (key : α → Nat) {l : List α}
    (hs : List.Sorted (fun a b => key a ≤ key b) l) :
    ∀ (i j : Nat) (hi : i < l.length) (hj : j < l.length), i ≤ j →
      key (l.get ⟨i, hi⟩) ≤ key (l.get ⟨j, hj⟩) := by
  intro i j hi hj hij
  rcases Nat.eq_or_lt_of_le hij with rfl | hlt
  · exact le_refl _
  · exact List.pairwise_iff_get.mp hs ⟨i, hi⟩ ⟨j, hj⟩ hlt

theorem sorted_insertIdx_bounds {α : Type} (key : α → Nat) (x : α) :
    ∀ (i : Nat) (l : List α),
      List.Sorted (fun a b => key a ≤ key b) l →
      i ≤ l.length →
      (∀ (j : Nat) (hj : j < l.length), j < i → key (l.get ⟨j, hj⟩) ≤ key x) →
      (∀ (j : Nat) (hj : j < l.length), i ≤ j → key x ≤ key (l.get ⟨j, hj⟩)) →
      List.Sorted (fun a b => key a ≤ key b) (l.insertIdx i x)
  | 0, l, hs, _hi, _hlo, hhi => by
    rw [List.insertIdx_zero]
    refine List.sorted_cons.mpr ⟨?_, hs⟩
    intro b hb
    obtain ⟨⟨j, hj⟩, rfl⟩ := List.mem_iff_get.mp hb
    exact hhi j hj (Nat.zero_le j)
  | i + 1, [], _hs, hi, _hlo, _hhi => by simp at hi
  | i + 1, a :: l, hs, hi, hlo, hhi => by
    rw [List.insertIdx_succ_cons]
    have hs' := List.sorted_cons.mp hs
    refine List.sorted_cons.mpr ⟨?_, ?_⟩
    · intro b hb
      rw [List.mem_insertIdx (by simpa using Nat.le_of_succ_le_succ hi)] at hb
      rcases hb with rfl | hb
      · exact hlo 0 (by simp) (Nat.succ_pos i)
      · exact hs'.1 b hb
    · exact sorted_insertIdx_bounds key x i l hs'.2 (by simpa using hi)
        (fun j hj hji => by
          have := hlo (j + 1) (by simpa using hj) (by omega)
          simpa using this)
        (fun j hj hji => by
          have := hhi (j + 1) (by simpa using hj) (by omega)
          simpa using this)

theorem rustBinarySearchGo_bounds {α : Type} (key : α → Nat) (target : Nat)
    (l : List α) (hs : List.Sorted (fun a b => key a ≤ key b) l) :
    ∀ (fuel left right : Nat), right - left ≤ fuel → left ≤ right →
      right ≤ l.length →
      (∀ (j : Nat) (hj : j < l.length), j < left → key (l.get ⟨j, hj⟩) < target) →
      (∀ (j : Nat) (hj : j < l.length), right ≤ j → target < key (l.get ⟨j, hj⟩)) →
      ∀ i, (rustBinarySearchGo key target l fuel left right = Sum.inl i ∨
            rustBinarySearchGo key target l fuel left right = Sum.inr i) →
        i ≤ l.length ∧
        (∀ (j : Nat) (hj : j < l.length), j < i → key (l.get ⟨j, hj⟩) ≤ target) ∧
        (∀ (j : Nat) (hj : j < l.length), i ≤ j → target ≤ key (l.get ⟨j, hj⟩)) := by
  intro fuel
  induction fuel with
  | zero =>
    intro left right hfuel hlr hrlen hlo hhi i hres
    have hi : i = left := by
      rcases hres with h | h
      · rw [rustBinarySearchGo] at h
        exact absurd h (by simp)
      · rw [rustBinarySearchGo] at h
        simpa using h.symm
    subst hi
    refine ⟨by omega, fun j hj hji => le_of_lt (hlo j hj hji),
      fun j hj hji => le_of_lt (hhi j hj (by omega))⟩
  | succ n ih =>
    intro left right hfuel hlr hrlen hlo hhi i hres
    by_cases hcase : left < right
    · have hmidlt : left + (right - left) / 2 < right := by omega
      have hmidlen : left + (right - left) / 2 < l.length := by omega
      have hget : l[left + (right - left) / 2]? =
          some (l.get ⟨left + (right - left) / 2, hmidlen⟩) := by
        rw [List.getElem?_eq_getElem hmidlen]
        simp
      have hmono := sorted_key_mono key hs
      by_cases h1 : key (l.get ⟨left + (right - left) / 2, hmidlen⟩) < target
      · have hlo' : ∀ (j : Nat) (hj : j < l.length),
            j < left + (right - left) / 2 + 1 → key (l.get ⟨j, hj⟩) < target := by
          intro j hj hji
          by_cases hjl : j < left
          · exact hlo j hj hjl
          · exact lt_of_le_of_lt (hmono j _ hj hmidlen (by omega)) h1
        have hres' : rustBinarySearchGo key target l n
              (left + (right - left) / 2 + 1) right = Sum.inl i ∨
            rustBinarySearchGo key target l n
              (left + (right - left) / 2 + 1) right = Sum.inr i := by
          rcases hres with h | h
          · rw [rustBinarySearchGo, if_pos hcase, hget] at h
            dsimp only at h
            rw [if_pos h1] at h
            exact Or.inl h
          · rw [rustBinarySearchGo, if_pos hcase, hget] at h
            dsimp only at h
            rw [if_pos h1] at h
            exact Or.inr h
        exact ih _ _ (by omega) (by omega) hrlen hlo' hhi i hres'
      · by_cases h2 : target < key (l.get ⟨left + (right - left) / 2, hmidlen⟩)
        · have hhi' : ∀ (j : Nat) (hj : j < l.length),
              left + (right - left) / 2 ≤ j → target < key (l.get ⟨j, hj⟩) := by
            intro j hj hji
            by_cases hjr : right ≤ j
            · exact hhi j hj hjr
            · exact lt_of_lt_of_le h2 (hmono _ j hmidlen hj (by omega))
          have hres' : rustBinarySearchGo key target l n left
                (left + (right - left) / 2) = Sum.inl i ∨
              rustBinarySearchGo key target l n left
                (left + (right - left) / 2) = Sum.inr i := by
            rcases hres with h | h
            · rw [rustBinarySearchGo, if_pos hcase, hget] at h
              dsimp only at h
              rw [if_neg h1, if_pos h2] at h
              exact Or.inl h
            · rw [rustBinarySearchGo, if_pos hcase, hget] at h
              dsimp only at h
              rw [if_neg h1, if_pos h2] at h
              exact Or.inr h
          exact ih _ _ (by omega) (by omega) (by omega) hlo hhi' i hres'
        · have heq : key (l.get ⟨left + (right - left) / 2, hmidlen⟩) = target := by
            omega
          have hi : i = left + (right - left) / 2 := by
            rcases hres with h | h
            · rw [rustBinarySearchGo, if_pos hcase, hget] at h
              dsimp only at h
              rw [if_neg h1, if_neg h2] at h
              simpa using h.symm
            · rw [rustBinarySearchGo, if_pos hcase, hget] at h
              dsimp only at h
              rw [if_neg h1, if_neg h2] at h
              exact absurd h (by simp)
          subst hi
          refine ⟨by omega, fun j hj hji => ?_, fun j hj hji => ?_⟩
          · exact le_of_le_of_eq (hmono j _ hj hmidlen (by omega)) heq
          · exact le_of_eq_of_le heq.symm (hmono _ j hmidlen hj hji)
    · have hi : i = left := by
        rcases hres with h | h
        · rw [rustBinarySearchGo, if_neg hcase] at h
          exact absurd h (by simp)
        · rw [rustBinarySearchGo, if_neg hcase] at h
          simpa using h.symm
      subst hi
      refine ⟨by omega, fun j hj hji => le_of_lt (hlo j hj hji),
        fun j hj hji => le_of_lt (hhi j hj (by omega))⟩

theorem bsInsertIdx_spec {α : Type} (key : α → Nat) (target : Nat)
    (l : List α) (hs : List.Sorted (fun a b => key a ≤ key b) l) :
    bsInsertIdx key target l ≤ l.length ∧
    (∀ (j : Nat) (hj : j < l.length), j < bsInsertIdx key target l →
      key (l.get ⟨j, hj⟩) ≤ target) ∧
    (∀ (j : Nat) (hj : j < l.length), bsInsertIdx key target l ≤ j →
      target ≤ key (l.get ⟨j, hj⟩)) := by
  have hres : rustBinarySearch key target l 0 l.length =
        Sum.inl (bsInsertIdx key target l) ∨
      rustBinarySearch key target l 0 l.length =
        Sum.inr (bsInsertIdx key target l) := by
    unfold bsInsertIdx
    cases rustBinarySearch key target l 0 l.length with
    | inl i => exact Or.inl rfl
    | inr i => exact Or.inr rfl
  exact rustBinarySearchGo_bounds key target l hs (l.length - 0) 0 l.length
    (by omega) (by omega) (by omega)
    (fun j hj hji => by omega)
    (fun j hj hji => by omega)
    (bsInsertIdx key target l) hres

/-- The invariant: every family's font list is sorted ascending by
weight. -/
def FamiliesSorted (c : CollectionData) : Prop :=
  ∀ fam ∈ c.families,
    List.Sorted (fun a b => a.weight ≤ b.weight) fam.fonts

theorem addFontsFaceAt_familiesSorted (sid : SourceId) (src : SourceData)
    (st : ScanState) (font : ScannedFont) (font_id : FontId)
    (family_id : FamilyId) (c : CollectionData)
    (hc : FamiliesSorted c) :
    FamiliesSorted (addFontsFaceAt sid src st font font_id family_id c).coll := by
  unfold addFontsFaceAt
  cases hfam : c.families[family_id.to_usize]? with
  | none => exact hc
  | some family =>
    dsimp only
    split
    · exact hc
    · dsimp only
      intro fam hmem
      rw [foldl_pushScript_families] at hmem
      dsimp only at hmem
      have hfa : (if !st.added_source then
          { c with sources := c.sources ++ [src] } else c).families =
          c.families := by
        split <;> rfl
      rw [hfa] at hmem
      rcases List.mem_or_eq_of_mem_set hmem with hmem | rfl
      · exact hc fam hmem
      · have hsorted : List.Sorted (fun a b => a.weight ≤ b.weight)
            family.fonts :=
          hc family (List.getElem?_mem hfam)
        have hsorted' : List.Sorted (fun a b => a.weight ≤ b.weight)
            (if font.attributes.stretch ≠ Stretch.NORMAL then
              { family with has_stretch := true } else family).fonts := by
          split <;> exact hsorted
        dsimp only
        obtain ⟨hle, hlo, hhi⟩ := bsInsertIdx_spec
          (fun e : FontRec => e.weight) font.attributes.weight _ hsorted'
        exact sorted_insertIdx_bounds (fun e : FontRec => e.weight)
          ⟨font_id, font.attributes.stretch, font.attributes.weight,
            font.attributes.style⟩ _ _ hsorted' hle hlo hhi

theorem addFontsFace_familiesSorted (sid : SourceId) (src : SourceData)
    (st : ScanState) (font : ScannedFont)
    (hc : FamiliesSorted st.coll) :
    FamiliesSorted (addFontsFace sid src st font).coll := by
  unfold addFontsFace
  dsimp only
  cases FontId.alloc st.coll.fonts.length st.coll.is_user with
  | none => exact hc
  | some font_id =>
    dsimp only
    cases hm : mapFind st.coll.family_map font.lowercase_name with
    | none =>
      dsimp only
      cases FamilyId.alloc st.coll.families.length st.coll.is_user with
      | none => exact hc
      | some family_id =>
        refine addFontsFaceAt_familiesSorted sid src st font font_id
          family_id _ ?_
        intro fam hmem
        simp only [createFamily, List.mem_append, List.mem_singleton] at hmem
        rcases hmem with hmem | rfl
        · exact hc fam hmem
        · exact List.sorted_nil
    | some v =>
      cases v with
      | none => exact hc
      | some family_id =>
        exact addFontsFaceAt_familiesSorted sid src st font font_id
          family_id _ hc

theorem foldl_addFontsFace_familiesSorted (sid : SourceId)
    (src : SourceData) :
    ∀ (faces : List ScannedFont) (st : ScanState), FamiliesSorted st.coll →
      FamiliesSorted ((faces.foldl (addFontsFace sid src) st)).coll
  | [], _, h => h
  | f :: faces, st, h =>
    foldl_addFontsFace_familiesSorted sid src faces _
      (addFontsFace_familiesSorted sid src st f h)

/-- C7: ingestion preserves the per-family ordering invariant — starting
from a collection in which every family's font list is sorted ascending by
weight, any `add_fonts` call (each accepted face inserted at its
binary-search position) leaves every family's font list sorted ascending by
weight. -/
theorem claim7_weight_sorted (c : CollectionData) (faces : List ScannedFont)
    (source : SourceData) (reg : Option Registration) (st : ScanState)
    (hc : ∀ fam ∈ c.families,
      List.Sorted (fun a b => a.weight ≤ b.weight) fam.fonts)
    (h : CollectionData.add_fonts c faces source reg = Option.some st) :
    ∀ fam ∈ st.coll.families,
      List.Sorted (fun a b => a.weight ≤ b.weight) fam.fonts := by
  unfold CollectionData.add_fonts at h
  cases halloc : SourceId.alloc c.sources.length c.is_user with
  | none =>
    rw [halloc] at h
    exact absurd h (by simp)
  | some source_id =>
    rw [halloc] at h
    simp only [Option.some.injEq] at h
    subst h
    exact foldl_addFontsFace_familiesSorted source_id source faces
      { coll := c, added_source := false, count := 0, reg := reg } hc

/-- The single family created by ingesting `fooFace` into the empty
collection. -/
def famW7 : FamilyData :=
  stW8.coll.families.getD 0 { name := "", has_stretch := false, fonts := [] }

theorem claim7_weight_sorted_witness :
    List.Sorted (fun a b => a.weight ≤ b.weight) famW7.fonts :=
  claim7_weight_sorted emptyCollection [fooFace] srcShared Option.none stW8
    (by decide) (by decide) famW7 (by decide)

/-! ### C1: where register_fonts puts the faces, and whose origin bit the
returned ids carry -/

theorem familyId_alloc_isUser (i : Nat) (u : Bool) (fid : FamilyId)
    (h : FamilyId.alloc i u = some fid) : fid.isUser = u := by
  unfold FamilyId.alloc at h
  split at h
  · simp only [Option.some.injEq] at h
    rw [← h]
  · exact Option.noConfusion h

theorem fontId_alloc_isUser (i : Nat) (u : Bool) (fid : FontId)
    (h : FontId.alloc i u = some fid) : fid.isUser = u := by
  unfold FontId.alloc at h
  split at h
  · simp only [Option.some.injEq] at h
    rw [← h]
  · exact Option.noConfusion h

theorem addFontsFaceAt_is_user (sid : SourceId) (src : SourceData)
    (st : ScanState) (font : ScannedFont) (font_id : FontId)
    (family_id : FamilyId) (c : CollectionData) :
    (addFontsFaceAt sid src st font font_id family_id c).coll.is_user =
      c.is_user := by
  unfold addFontsFaceAt
  cases hfam : c.families[family_id.to_usize]? with
  | none => rfl
  | some family =>
    dsimp only
    split
    · rfl
    · dsimp only
      rw [foldl_pushScript_is_user]
      split <;> rfl

/-- The registration after the shared ingestion tail: unchanged on a skip,
or extended by exactly this face's family and font ids on acceptance. -/
theorem addFontsFaceAt_reg (sid : SourceId) (src : SourceData)
    (st : ScanState) (font : ScannedFont) (font_id : FontId)
    (family_id : FamilyId) (c : CollectionData) :
    (addFontsFaceAt sid src st font font_id family_id c).reg = st.reg ∨
    (addFontsFaceAt sid src st font font_id family_id c).reg =
      st.reg.map (fun r =>
        { families := if family_id ∈ r.families then r.families
                      else r.families ++ [family_id]
          fonts := r.fonts ++ [font_id] }) := by
  unfold addFontsFaceAt
  cases hfam : c.families[family_id.to_usize]? with
  | none => exact Or.inl rfl
  | some family =>
    dsimp only
    split
    · exact Or.inl rfl
    · exact Or.inr rfl

/-- All ids a registration carries have the given origin bit. -/
def RegOk (u : Bool) (ro : Option Registration) : Prop :=
  ∀ r, ro = some r →
    (∀ f ∈ r.families, f.isUser = u) ∧ (∀ f ∈ r.fonts, f.isUser = u)

/-- All family ids reachable through the name map carry the collection's
origin bit. -/
def MapOk (c : CollectionData) : Prop :=
  ∀ (k : String) (fid : FamilyId),
    mapFind c.family_map k = Option.some (Option.some fid) →
    fid.isUser = c.is_user

/-- The ingestion invariant for C1: the collection keeps its origin flag,
the name map only holds ids of that origin, and the registration (always
present here) only accumulates ids of that origin. -/
def IngestInv (u : Bool) (st : ScanState) : Prop :=
  st.coll.is_user = u ∧ MapOk st.coll ∧ RegOk u st.reg ∧
    st.reg.isSome = true

theorem regOk_push (u : Bool) (ro : Option Registration)
    (family_id : FamilyId) (font_id : FontId) (hro : RegOk u ro)
    (hfid : family_id.isUser = u) (hfont : font_id.isUser = u) :
    RegOk u (ro.map (fun r =>
      { families := if family_id ∈ r.families then r.families
                    else r.families ++ [family_id]
        fonts := r.fonts ++ [font_id] })) := by
  intro r hr
  cases ro with
  | none => exact Option.noConfusion hr
  | some r₀ =>
    simp only [Option.map_some', Option.some.injEq] at hr
    obtain ⟨hf, hn⟩ := hro r₀ rfl
    subst hr
    constructor
    · intro f hf'
      dsimp only at hf'
      split at hf'
      · exact hf f hf'
      · rcases List.mem_append.mp hf' with hmem | hmem
        · exact hf f hmem
        · rw [List.mem_singleton.mp hmem]
          exact hfid
    · intro f hf'
      rcases List.mem_append.mp hf' with hmem | hmem
      · exact hn f hmem
      · rw [List.mem_singleton.mp hmem]
        exact hfont

theorem ingestInv_at (u : Bool) (sid : SourceId) (src : SourceData)
    (st : ScanState) (font : ScannedFont) (font_id : FontId)
    (family_id : FamilyId) (c : CollectionData)
    (hcu : c.is_user = u) (hcm : MapOk c) (hreg : RegOk u st.reg)
    (hsome : st.reg.isSome = true)
    (hfid : family_id.isUser = u) (hfont : font_id.isUser = u) :
    IngestInv u (addFontsFaceAt sid src st font font_id family_id c) := by
  refine ⟨(addFontsFaceAt_is_user sid src st font font_id family_id c).trans
    hcu, ?_, ?_, ?_⟩
  · intro k fid hk
    rw [addFontsFaceAt_family_map] at hk
    rw [addFontsFaceAt_is_user]
    exact hcm k fid hk
  · rcases addFontsFaceAt_reg sid src st font font_id family_id c with
      h | h
    · rw [h]
      exact hreg
    · rw [h]
      exact regOk_push u st.reg family_id font_id hreg hfid hfont
  · rcases addFontsFaceAt_reg sid src st font font_id family_id c with
      h | h
    · rw [h]
      exact hsome
    · rw [h]
      cases hr : st.reg with
      | none =>
        rw [hr] at hsome
        simp at hsome
      | some r₀ => simp

theorem addFontsFace_ingestInv (u : Bool) (sid : SourceId)
    (src : SourceData) (st : ScanState) (font : ScannedFont)
    (h : IngestInv u st) :
    IngestInv u (addFontsFace sid src st font) := by
  obtain ⟨hu, hmap, hreg, hsome⟩ := h
  unfold addFontsFace
  dsimp only
  cases halloc : FontId.alloc st.coll.fonts.length st.coll.is_user with
  | none => exact ⟨hu, hmap, hreg, hsome⟩
  | some font_id =>
    have hfont : font_id.isUser = u :=
      (fontId_alloc_isUser _ _ _ halloc).trans hu
    dsimp only
    cases hm : mapFind st.coll.family_map font.lowercase_name with
    | none =>
      dsimp only
      cases hfalloc : FamilyId.alloc st.coll.families.length
          st.coll.is_user with
      | none => exact ⟨hu, hmap, hreg, hsome⟩
      | some family_id =>
        have hfid : family_id.isUser = u :=
          (familyId_alloc_isUser _ _ _ hfalloc).trans hu
        refine ingestInv_at u sid src st font font_id family_id _
          hu ?_ hreg hsome hfid hfont
        intro k fid hk
        simp only [createFamily] at hk ⊢
        by_cases hke : k = font.lowercase_name
        · subst hke
          rw [mapFind_insert_self] at hk
          simp only [Option.some.injEq] at hk
          rw [← hk]
          exact hfid.trans hu.symm
        · rw [mapFind_insert_other _ _ _ _ hke] at hk
          exact hmap k fid hk
    | some v =>
      cases v with
      | none => exact ⟨hu, hmap, hreg, hsome⟩
      | some family_id =>
        have hfid : family_id.isUser = u := (hmap _ _ hm).trans hu
        exact ingestInv_at u sid src st font font_id family_id _
          hu hmap hreg hsome hfid hfont

theorem foldl_addFontsFace_ingestInv (u : Bool) (sid : SourceId)
    (src : SourceData) :
    ∀ (faces : List ScannedFont) (st : ScanState), IngestInv u st →
      IngestInv u (faces.foldl (addFontsFace sid src) st)
  | [], _, h => h
  | f :: faces, st, h =>
    foldl_addFontsFace_ingestInv u sid src faces _
      (addFontsFace_ingestInv u sid src st f h)

/-- A library over an empty scanned system collection and an empty user
collection, as `LibraryBuilder::build` plus `Library::new` produce. -/
def libReg : Library :=
  { system := SystemCollectionData.scanned emptyCollection
    user := { emptyCollection with is_user := true }
    user_version := 0 }

/-- C1 counterexample: `register_fonts` accepts the blob's single face and
returns a registration, yet the returned family and font ids carry a
cleared user-origin bit, the user collection is untouched, and it is the
system collection that changed. -/
theorem claim1_counterexample :
    (FontContext.register_fonts libReg [fooFace] [7]).1 =
      Option.some { families := [⟨0, false⟩], fonts := [⟨0, false⟩] } ∧
    FamilyId.is_user_font ⟨0, false⟩ = false ∧
    FontId.is_user_font ⟨0, false⟩ = false ∧
    (FontContext.register_fonts libReg [fooFace] [7]).2.user = libReg.user ∧
    (FontContext.register_fonts libReg [fooFace] [7]).2.system ≠
      libReg.system := by decide

/-- C1 amended: `register_fonts` ingests the blob's faces into the *system*
collection (when it is dynamically backed), leaving the user collection
untouched; it returns `None` exactly when zero faces are accepted; and when
it returns a registration, every family and font id in it carries the
origin bit of the system collection — the user bit cleared. -/
theorem claim1_amended (lib : Library) (faces : List ScannedFont)
    (data : FontBytes) (c : CollectionData)
    (hs : lib.system = SystemCollectionData.scanned c)
    (hu : c.is_user = false)
    (hm : MapOk c) :
    (FontContext.register_fonts lib faces data).2.user = lib.user ∧
    ((FontContext.register_fonts lib faces data).1 = Option.none ↔
      (SystemCollectionData.add_fonts lib.system faces
        (registrationSource data)
        (Option.some { families := [], fonts := [] })).count.getD 0 = 0) ∧
    (∀ r, (FontContext.register_fonts lib faces data).1 = Option.some r →
      (∀ f ∈ r.families, f.isUser = false) ∧
      (∀ f ∈ r.fonts, f.isUser = false)) := by
  obtain ⟨sys, user, ver⟩ := lib
  simp only at hs
  subst hs
  unfold FontContext.register_fonts SystemCollectionData.add_fonts
  dsimp only
  unfold CollectionData.add_fonts
  cases halloc : SourceId.alloc c.sources.length c.is_user with
  | none => simp
  | some source_id =>
    dsimp only
    have hinv := foldl_addFontsFace_ingestInv false source_id
      (registrationSource data) faces
      { coll := c, added_source := false, count := 0,
        reg := Option.some { families := [], fonts := [] } }
      ⟨hu, hm, by intro r hr; simp at hr; rw [← hr]; simp, rfl⟩
    obtain ⟨_, _, hreg, hsome⟩ := hinv
    set stF := faces.foldl
      (addFontsFace source_id (registrationSource data))
      { coll := c, added_source := false, count := 0,
        reg := Option.some { families := [], fonts := [] } } with hstF
    by_cases hcount : stF.count = 0
    · simp [hcount]
    · simp only [Option.getD_some]
      rw [if_pos hcount]
      cases hrs : stF.reg with
      | none =>
        rw [hrs] at hsome
        simp at hsome
      | some r₀ =>
        simp only [hrs]
        refine ⟨by trivial, ?_, ?_⟩
        · simp [hcount]
        · intro r hr
          simp only [Option.some.injEq] at hr
          subst hr
          exact hreg r₀ hrs

theorem claim1_amended_witness :
    (FontContext.register_fonts libReg [fooFace] [7]).2.user = libReg.user ∧
    ((FontContext.register_fonts libReg [fooFace] [7]).1 = Option.none ↔
      (SystemCollectionData.add_fonts libReg.system [fooFace]
        (registrationSource [7])
        (Option.some { families := [], fonts := [] })).count.getD 0 = 0) ∧
    (∀ r, (FontContext.register_fonts libReg [fooFace] [7]).1 =
        Option.some r →
      (∀ f ∈ r.families, f.isUser = false) ∧
      (∀ f ∈ r.fonts, f.isUser = false)) :=
  claim1_amended libReg [fooFace] [7] emptyCollection rfl rfl
    (by intro k fid h; simp [emptyCollection, CollectionData.new, mapFind] at h)

end Fount
